import Mathlib

/-!
Shallow embedding of the mastra tool-call step and its message utilities:
the args reconciler (`findToolCallArgs`), the provider compatibility
normalizers (`ensureGeminiCompatibleMessages`, `ensureAnthropicCompatibleMessages`),
the approval-metadata bookkeeping (`addToolApprovalMetadata`,
`removeToolApprovalMetadata`) and the tool-call step itself
(`toolCallStepExecute`).

Structured argument mappings (JS objects such as tool-call `args`) are
modelled as association lists `List (String × String)`; JS objects never
hold duplicate keys, which appears below as `Nodup` hypotheses on key
lists where a theorem needs it.  Telemetry spans are modelled
declaratively as a record of the attributes and status the code sets.
Persistence (save-queue flushes, thread creation) has no observable
effect on the values the claims speak about, except that the
metadata-removal helper returns early when the save-queue manager or the
thread id is absent; that guard is modelled by the `hasStorage` flag.
-/

namespace Mastra

/-- A structured argument mapping (a JSON object of tool-call args). -/
abbrev Args := List (String × String)

/-- Lifecycle state of a tool invocation part (source: `state ∈ \x7bcall, result\x7d`). -/
inductive ToolState
  | call
  | result
  deriving DecidableEq, Repr

/-- A tool invocation embedded in a DB message (v2 part or legacy flat entry). -/
structure ToolInvocation where
  state : ToolState
  toolCallId : String
  toolName : String
  args : Option Args
  result : Option String
  deriving DecidableEq, Repr

/-- A content part of a stored (DB) message. -/
inductive Part
  | toolInvocation (inv : ToolInvocation)
  | text (s : String)
  deriving DecidableEq, Repr

/-- One pending-approval record, keyed by toolCallId inside message metadata. -/
structure PendingApproval where
  toolName : String
  args : Args
  type : String
  runId : String
  deriving DecidableEq, Repr

/-- The metadata bag of a message; only the `pendingToolApprovals` key is
    structurally relevant, remaining keys are kept abstract in `other`. -/
structure Metadata where
  pendingToolApprovals : Option (List (String × PendingApproval))
  other : List (String × String)
  deriving DecidableEq, Repr

/-- Content of a stored (DB) message: structured v2 parts, the legacy flat
    toolInvocations list, and the metadata bag.  Each is optional, as in the
    source types. -/
structure MessageContent where
  parts : Option (List Part)
  toolInvocations : Option (List ToolInvocation)
  metadata : Option Metadata
  deriving DecidableEq, Repr

/-- Message author role. -/
inductive Role
  | system
  | user
  | assistant
  | tool
  deriving DecidableEq, Repr

/-- A stored (MastraDB / MastraMessageV2) message. -/
structure Message where
  role : Role
  content : MessageContent
  deriving DecidableEq, Repr

/-- Predicate of the `parts.find` call in `findToolCallArgs`:
    `p.type === 'tool-invocation' && p.toolInvocation.toolCallId === toolCallId`. -/
def partMatchesToolCall (toolCallId : String) (p : Part) : Bool :=
  match p with
  | Part.toolInvocation inv => inv.toolCallId == toolCallId
  | Part.text _ => false

/-- One iteration of the reverse scan in `findToolCallArgs`: for a single
    message, the args the loop body would return, or `none` when the loop
    continues.  Non-assistant messages are skipped; the first matching
    structured part is checked for non-empty args, then the legacy flat
    toolInvocations list. -/
def checkMessage (toolCallId : String) (msg : Message) : Option Args :=
  if msg.role ≠ Role.assistant then
    none
  else
    let fromParts : Option Args :=
      match msg.content.parts with
      | some parts =>
        match parts.find? (partMatchesToolCall toolCallId) with
        | some (Part.toolInvocation inv) =>
          let args := inv.args.getD []
          if args.isEmpty then none else some args
        | _ => none
      | none => none
    match fromParts with
    | some args => some args
    | none =>
      match msg.content.toolInvocations with
      | some invs =>
        match invs.find? (fun inv => inv.toolCallId == toolCallId) with
        | some inv =>
          let args := inv.args.getD []
          if args.isEmpty then none else some args
        | none => none
      | none => none

/-- Tail of the reverse scan: first message (in the given order) on which
    `checkMessage` yields args wins; otherwise the scan continues. -/
def findToolCallArgsAux (toolCallId : String) : List Message → Args
  | [] => []
  | msg :: rest =>
    match checkMessage toolCallId msg with
    | some args => args
    | none => findToolCallArgsAux toolCallId rest

/-- Args reconciler: scans messages newest-to-oldest for the original args of
    `toolCallId`, returning `[]` (the empty mapping) when nothing non-empty is
    found. -/
def findToolCallArgs (messages : List Message) (toolCallId : String) : Args :=
  findToolCallArgsAux toolCallId messages.reverse

/-- Error domains of `MastraError` (only the one used here is modelled). -/
inductive ErrorDomain
  | agent
  deriving DecidableEq, Repr

/-- Error categories of `MastraError` (only the one used here is modelled). -/
inductive ErrorCategory
  | user
  deriving DecidableEq, Repr

/-- A classified Mastra error. -/
structure MastraError where
  id : String
  domain : ErrorDomain
  category : ErrorCategory
  text : String
  deriving DecidableEq, Repr

/-- A content part of an outgoing model message; tool-result parts carry an
    optional `input` field (absent until the Anthropic normalizer adds it). -/
inductive ModelPart
  | toolResult (toolCallId : String) (output : String) (input : Option Args)
  | otherPart (s : String)
  deriving DecidableEq, Repr

/-- Content of an outgoing model message: a plain string or an array of parts. -/
inductive ModelContent
  | text (s : String)
  | parts (ps : List ModelPart)
  deriving DecidableEq, Repr

/-- An outgoing model message. -/
structure ModelMessage where
  role : Role
  content : ModelContent
  deriving DecidableEq, Repr

/-- The error raised when a sequence has no user or assistant message. -/
def noUserOrAssistantError : MastraError :=
  { id := "NO_USER_OR_ASSISTANT_MESSAGES"
    domain := ErrorDomain.agent
    category := ErrorCategory.user
    text := "This request does not contain any user or assistant messages. At least one user or assistant message is required to generate a response." }

/-- The synthetic minimal user message the Gemini normalizer splices in. -/
def syntheticUserMessage : ModelMessage :=
  { role := Role.user, content := ModelContent.text "." }

/-- Gemini normalizer: the first non-system message must be user-authored; an
    assistant-first sequence gets a synthetic user message spliced in before
    it, and a sequence with no non-system message raises the classified
    error. -/
def ensureGeminiCompatibleMessages (messages : List ModelMessage) :
    Except MastraError (List ModelMessage) :=
  match messages.findIdx? (fun m => !(m.role == Role.system)) with
  | none => Except.error noUserOrAssistantError
  | some i =>
    if (messages[i]?).map ModelMessage.role = some Role.assistant then
      Except.ok (messages.take i ++ syntheticUserMessage :: messages.drop i)
    else
      Except.ok messages

/-- Per-part enrichment of the Anthropic normalizer: a tool-result part gets
    `input := findToolCallArgs dbMessages toolCallId`; other parts are kept. -/
def enrichPart (dbMessages : List Message) (p : ModelPart) : ModelPart :=
  match p with
  | ModelPart.toolResult toolCallId output _ =>
    ModelPart.toolResult toolCallId output (some (findToolCallArgs dbMessages toolCallId))
  | ModelPart.otherPart s => ModelPart.otherPart s

/-- Enriches a single message's tool-result parts with the reconciled input;
    non-tool messages and string-content messages are returned unchanged. -/
def enrichToolResultsWithInput (message : ModelMessage) (dbMessages : List Message) :
    ModelMessage :=
  match message.content with
  | ModelContent.text _ => message
  | ModelContent.parts ps =>
    if message.role ≠ Role.tool then
      message
    else
      { role := message.role, content := ModelContent.parts (ps.map (enrichPart dbMessages)) }

/-- Anthropic normalizer: maps the per-message enrichment over the sequence. -/
def ensureAnthropicCompatibleMessages (messages : List ModelMessage)
    (dbMessages : List Message) : List ModelMessage :=
  messages.map (fun msg => enrichToolResultsWithInput msg dbMessages)

/-- JS object key assignment `obj[k] = v` on an association list: an existing
    entry for the key is overwritten in place, otherwise the entry is
    appended. -/
def objInsert (k : String) (v : PendingApproval) :
    List (String × PendingApproval) → List (String × PendingApproval)
  | [] => [(k, v)]
  | (k', v') :: rest =>
    if k' == k then (k', v) :: rest else (k', v') :: objInsert k v rest

/-- JS `delete obj[k]` on an association list: the entry for the key is
    removed (objects hold at most one entry per key, so filtering is exact). -/
def objDelete (k : String) (m : List (String × PendingApproval)) :
    List (String × PendingApproval) :=
  m.filter (fun e => !(e.1 == k))

/-- Adds a PendingApproval record under `toolCallId` to one message's
    metadata, creating the metadata bag and the `pendingToolApprovals` map as
    needed (`metadata.pendingToolApprovals = metadata.pendingToolApprovals || \x7b\x7d`). -/
def addApprovalToMessage (toolCallId toolName : String) (args : Args) (runId : String)
    (msg : Message) : Message :=
  let metadata := msg.content.metadata.getD { pendingToolApprovals := none, other := [] }
  let pending := metadata.pendingToolApprovals.getD []
  { msg with
    content :=
      { msg.content with
        metadata :=
          some
            { metadata with
              pendingToolApprovals :=
                some (objInsert toolCallId
                  { toolName := toolName, args := args, type := "approval", runId := runId }
                  pending) } } }

/-- Applies `f` to the last element of the list satisfying `p` (the element
    `[...list].reverse().find(p)` mutates in the source), leaving every other
    element unchanged. -/
def updateLastSuchThat (p : Message → Bool) (f : Message → Message) :
    List Message → List Message
  | [] => []
  | x :: xs =>
    if xs.any p then x :: updateLastSuchThat p f xs
    else if p x then f x :: xs
    else x :: xs

/-- `addToolApprovalMetadata`: attaches a PendingApproval record for the tool
    call to the last assistant message of the in-flight response messages (a
    no-op when no assistant message exists). -/
def addToolApprovalMetadata (toolCallId toolName : String) (args : Args) (runId : String)
    (responseMessages : List Message) : List Message :=
  updateLastSuchThat (fun m => m.role == Role.assistant)
    (addApprovalToMessage toolCallId toolName args runId) responseMessages

/-- The `pendingToolApprovals` map of a message, if its metadata carries one. -/
def pendingOpt (msg : Message) : Option (List (String × PendingApproval)) :=
  match msg.content.metadata with
  | some md => md.pendingToolApprovals
  | none => none

/-- The `pendingToolApprovals` map of a message, defaulting to the empty map. -/
def pendingMapOf (msg : Message) : List (String × PendingApproval) :=
  (pendingOpt msg).getD []

/-- Whether a message's metadata holds a PendingApproval record for the id
    (the search predicate `!!pendingToolApprovals?.[toolCallId]`). -/
def msgHasPending (toolCallId : String) (msg : Message) : Bool :=
  match pendingOpt msg with
  | some m => (m.lookup toolCallId).isSome
  | none => false

/-- Deletes the PendingApproval record for the id from one message; when the
    map becomes empty the `pendingToolApprovals` key itself is removed. -/
def removeApprovalFromMessage (toolCallId : String) (msg : Message) : Message :=
  match msg.content.metadata with
  | none => msg
  | some md =>
    match md.pendingToolApprovals with
    | none => msg
    | some m =>
      let m2 := objDelete toolCallId m
      { msg with
        content :=
          { msg.content with
            metadata :=
              some { md with pendingToolApprovals := if m2.isEmpty then none else some m2 } } }

/-- `removeToolApprovalMetadata`: searches all persisted messages (newest
    first) for the one holding a PendingApproval record for the id and deletes
    that record.  When the save-queue manager or thread id is absent
    (`hasStorage = false`) the helper returns without touching anything. -/
def removeToolApprovalMetadata (hasStorage : Bool) (toolCallId : String)
    (allMessages : List Message) : List Message :=
  if hasStorage then
    updateLastSuchThat (msgHasPending toolCallId) (removeApprovalFromMessage toolCallId)
      allMessages
  else
    allMessages

/-- Step input schema: `\x7btoolCallId, toolName, args, providerExecuted, output?\x7d`. -/
structure ToolCallInput where
  toolCallId : String
  toolName : String
  args : Args
  providerExecuted : Bool
  output : Option String
  deriving DecidableEq, Repr

/-- Resume input of an approval suspension. -/
structure ResumeData where
  approved : Bool
  deriving DecidableEq, Repr

/-- A registered tool definition: optional declared id, approval requirement,
    the optional input-available hook and the optional execute routine (which
    returns a result or throws an error). -/
structure Tool where
  id : Option String
  requireApproval : Bool
  hasOnInputAvailable : Bool
  execute : Option (Args → Except String String)

/-- A telemetry span, modelled declaratively: the attributes set on it, its
    status, the recorded exception and whether `end()` was called. -/
structure Span where
  operationId : String
  toolName : String
  toolCallId : String
  argsAttr : Args
  providerExecutedAttr : Bool
  resultAttr : Option String
  statusCode : Option Nat
  statusMessage : Option String
  exceptionRecorded : Option String
  ended : Bool
  deriving DecidableEq, Repr

/-- Events enqueued on the output stream controller. -/
inductive ChunkEvent
  | toolCallApproval (runId toolCallId toolName : String) (args : Args)
  deriving DecidableEq, Repr

/-- The approval request carried in an approval-suspension checkpoint. -/
structure ApprovalRequest where
  toolCallId : String
  toolName : String
  args : Args
  deriving DecidableEq, Repr

/-- An approval-suspension checkpoint: the approval request, the serialized
    stream-state snapshot, and the resume label. -/
structure Checkpoint where
  requireToolApproval : ApprovalRequest
  streamState : String
  resumeLabel : String
  deriving DecidableEq, Repr

/-- A returned step value: the echoed request fields plus the optional
    `result` and `error` fields. -/
structure StepReturn where
  input : ToolCallInput
  result : Option String
  error : Option String
  deriving DecidableEq, Repr

/-- Outcome of one step invocation: a returned value or a suspension. -/
inductive StepOutcome
  | returned (out : StepReturn)
  | suspended (cp : Checkpoint)
  deriving DecidableEq, Repr

/-- Observable result of one step invocation: the outcome together with the
    emitted events, the spans produced, how often the input-available hook
    ran, the args of each execute invocation, and the two message views. -/
structure StepResult where
  outcome : StepOutcome
  events : List ChunkEvent
  spans : List Span
  hookCalls : Nat
  executeCalls : List Args
  responseMessages : List Message
  allMessages : List Message
  deriving DecidableEq, Repr

/-- Run-level context of the step: the registered tools, the run id, the
    run-wide approval policy flag (`__mastra_requireToolApproval`), the
    storage guard of the metadata-removal helper, and the serialized stream
    state used in checkpoints. -/
structure StepCtx where
  tools : List (String × Tool)
  runId : String
  requireToolApprovalFlag : Bool
  hasStorage : Bool
  streamState : String

/-- Tool resolution: exact key match against the registry first, then a
    linear scan for a tool whose declared id equals the name. -/
def resolveTool (tools : List (String × Tool)) (toolName : String) : Option Tool :=
  match tools.lookup toolName with
  | some t => some t
  | none => (tools.map Prod.snd).find? (fun t => t.id == some toolName)

/-- The span as first created, before any result or status is set. -/
def baseSpan (inputData : ToolCallInput) (providerExec : Bool) : Span :=
  { operationId := "mastra.stream.toolCall"
    toolName := inputData.toolName
    toolCallId := inputData.toolCallId
    argsAttr := inputData.args
    providerExecutedAttr := providerExec
    resultAttr := none
    statusCode := none
    statusMessage := none
    exceptionRecorded := none
    ended := false }

/-- The execute invocation with its surrounding telemetry: on success the
    span records the result and is ended; on a thrown error the span status
    is set to code 2, the exception is recorded, and a structured error
    result is returned (the catch block does not end the span). -/
def runToolExecute (span0 : Span) (exec : Args → Except String String)
    (inputData : ToolCallInput) (hookCalls : Nat)
    (responseMessages allMessages : List Message) : StepResult :=
  match exec inputData.args with
  | Except.ok r =>
    { outcome := StepOutcome.returned { input := inputData, result := some r, error := none }
      events := []
      spans := [{ span0 with resultAttr := some r, ended := true }]
      hookCalls := hookCalls
      executeCalls := [inputData.args]
      responseMessages := responseMessages
      allMessages := allMessages }
  | Except.error e =>
    { outcome := StepOutcome.returned { input := inputData, result := none, error := some e }
      events := []
      spans :=
        [{ span0 with statusCode := some 2, statusMessage := some e, exceptionRecorded := some e }]
      hookCalls := hookCalls
      executeCalls := [inputData.args]
      responseMessages := responseMessages
      allMessages := allMessages }

/-- The tool-call step body.  Mirrors the source control flow: the
    provider-executed short-circuit, tool resolution with the not-found
    result, the input-available hook, the pass-through return for tools
    without an execute routine, the approval gate (suspend on first entry,
    metadata removal and decline / fall-through on resume), and the
    suspendable executor with its telemetry.  The tool-invoked mid-execution
    suspension path is not modelled (no claim depends on it); persistence
    flushes have no observable effect beyond the `hasStorage` guard. -/
def toolCallStepExecute (ctx : StepCtx) (responseMessages allMessages : List Message)
    (inputData : ToolCallInput) (resumeData : Option ResumeData) : StepResult :=
  if inputData.providerExecuted then
    { outcome := StepOutcome.returned
        { input := inputData, result := inputData.output, error := none }
      events := []
      spans := [{ baseSpan inputData true with resultAttr := inputData.output, ended := true }]
      hookCalls := 0
      executeCalls := []
      responseMessages := responseMessages
      allMessages := allMessages }
  else
    match resolveTool ctx.tools inputData.toolName with
    | none =>
      { outcome := StepOutcome.returned
          { input := inputData
            result := some ("Tool " ++ inputData.toolName ++ " not found")
            error := none }
        events := []
        spans := []
        hookCalls := 0
        executeCalls := []
        responseMessages := responseMessages
        allMessages := allMessages }
    | some tool =>
      let hookCalls := if tool.hasOnInputAvailable then 1 else 0
      match tool.execute with
      | none =>
        { outcome := StepOutcome.returned { input := inputData, result := none, error := none }
          events := []
          spans := []
          hookCalls := hookCalls
          executeCalls := []
          responseMessages := responseMessages
          allMessages := allMessages }
      | some exec =>
        let span0 := baseSpan inputData false
        if ctx.requireToolApprovalFlag || tool.requireApproval then
          match resumeData with
          | none =>
            { outcome := StepOutcome.suspended
                { requireToolApproval :=
                    { toolCallId := inputData.toolCallId
                      toolName := inputData.toolName
                      args := inputData.args }
                  streamState := ctx.streamState
                  resumeLabel := inputData.toolCallId }
              events := [ChunkEvent.toolCallApproval ctx.runId inputData.toolCallId
                          inputData.toolName inputData.args]
              spans := [span0]
              hookCalls := hookCalls
              executeCalls := []
              responseMessages := addToolApprovalMetadata inputData.toolCallId
                inputData.toolName inputData.args ctx.runId responseMessages
              allMessages := allMessages }
          | some rd =>
            let newAll := removeToolApprovalMetadata ctx.hasStorage inputData.toolCallId
              allMessages
            if !rd.approved then
              { outcome := StepOutcome.returned
                  { input := inputData
                    result := some "Tool call was not approved by the user"
                    error := none }
                events := []
                spans :=
                  [{ span0 with
                      ended := true
                      resultAttr := some "Tool call was not approved by the user" }]
                hookCalls := hookCalls
                executeCalls := []
                responseMessages := responseMessages
                allMessages := newAll }
            else
              runToolExecute span0 exec inputData hookCalls responseMessages newAll
        else
          runToolExecute span0 exec inputData hookCalls responseMessages allMessages

/-- The per-message invariant of the approval bookkeeping: a
    `pendingToolApprovals` map that is present is non-empty, and its keys are
    distinct (at most one record per toolCallId). -/
def msgInv (msg : Message) : Prop :=
  ∀ m, pendingOpt msg = some m → m ≠ [] ∧ (m.map Prod.fst).Nodup

/-! Concrete fixtures used by witnesses and counterexamples. -/

/-- An execute routine that succeeds with a fixed result. -/
def execOk : Args → Except String String := fun _ => Except.ok "42"

/-- An execute routine that throws. -/
def execFail : Args → Except String String := fun _ => Except.error "boom"

/-- A plain executable tool, no approval required. -/
def toolPlain : Tool :=
  { id := none, requireApproval := false, hasOnInputAvailable := false, execute := some execOk }

/-- An approval-gated executable tool with an input-available hook. -/
def toolGated : Tool :=
  { id := none, requireApproval := true, hasOnInputAvailable := true, execute := some execOk }

/-- A passive tool: declares requireApproval but has no execute routine. -/
def toolPassive : Tool :=
  { id := none, requireApproval := true, hasOnInputAvailable := true, execute := none }

/-- An executable tool whose execute routine throws. -/
def toolThrows : Tool :=
  { id := none, requireApproval := false, hasOnInputAvailable := false, execute := some execFail }

/-- A basic tool-call request for the tool registered under key "t". -/
def inputW : ToolCallInput :=
  { toolCallId := "c1", toolName := "t", args := [("x", "1")], providerExecuted := false,
    output := none }

/-- A provider-executed request carrying an output. -/
def inputProviderExec : ToolCallInput :=
  { toolCallId := "c2", toolName := "pt", args := [], providerExecuted := true,
    output := some "po" }

/-- A bare assistant message with no metadata. -/
def assistantMsgW : Message :=
  { role := Role.assistant,
    content := { parts := none, toolInvocations := none, metadata := none } }

/-- A bare user message (DB form). -/
def userMsgW : Message :=
  { role := Role.user,
    content := { parts := none, toolInvocations := none, metadata := none } }

/-- The pending-approval record the fixtures attach for "c1". -/
def pendingRecW : PendingApproval :=
  { toolName := "t", args := [("x", "1")], type := "approval", runId := "r1" }

/-- An assistant message already holding the pending record for "c1". -/
def pendingMsgW : Message :=
  { role := Role.assistant,
    content :=
      { parts := none, toolInvocations := none,
        metadata := some { pendingToolApprovals := some [("c1", pendingRecW)], other := [] } } }

/-- Context with the plain tool registered under "t". -/
def ctxPlain : StepCtx :=
  { tools := [("t", toolPlain)], runId := "r1", requireToolApprovalFlag := false,
    hasStorage := true, streamState := "ss" }

/-- Context with the approval-gated tool registered under "t". -/
def ctxGated : StepCtx :=
  { tools := [("t", toolGated)], runId := "r1", requireToolApprovalFlag := false,
    hasStorage := true, streamState := "ss" }

/-- Same as `ctxGated` but with the persistence internals absent. -/
def ctxGatedNoStorage : StepCtx :=
  { tools := [("t", toolGated)], runId := "r1", requireToolApprovalFlag := false,
    hasStorage := false, streamState := "ss" }

/-- Context with the passive tool registered under "t" and the run-wide
    approval policy flag set. -/
def ctxPassive : StepCtx :=
  { tools := [("t", toolPassive)], runId := "r1", requireToolApprovalFlag := true,
    hasStorage := true, streamState := "ss" }

/-- Context with the throwing tool registered under "t". -/
def ctxThrows : StepCtx :=
  { tools := [("t", toolThrows)], runId := "r1", requireToolApprovalFlag := false,
    hasStorage := true, streamState := "ss" }

/-- Context with an empty tool registry. -/
def ctxEmpty : StepCtx :=
  { tools := [], runId := "r1", requireToolApprovalFlag := false,
    hasStorage := true, streamState := "ss" }

/-- Call-phase DB message of the split-tool-call scenario: args populated. -/
def callPhaseMsg : Message :=
  { role := Role.assistant,
    content :=
      { parts := some [Part.toolInvocation
          { state := ToolState.call, toolCallId := "c1", toolName := "test_tool",
            args := some [("foo", "bar")], result := none }]
        toolInvocations := none
        metadata := none } }

/-- Result-phase DB message of the split-tool-call scenario: empty args. -/
def resultPhaseMsg : Message :=
  { role := Role.assistant,
    content :=
      { parts := some [Part.toolInvocation
          { state := ToolState.result, toolCallId := "c1", toolName := "test_tool",
            args := some [], result := some "ok" }]
        toolInvocations := none
        metadata := none } }

/-- The split-scenario DB history: the call phase first, the result phase
    persisted later. -/
def dbHistory : List Message := [callPhaseMsg, resultPhaseMsg]

/-- The outgoing tool message whose tool-result part the Anthropic normalizer
    must enrich. -/
def toolResultModelMsg : ModelMessage :=
  { role := Role.tool, content := ModelContent.parts [ModelPart.toolResult "c1" "ok" none] }

/-- A system model message. -/
def sysModelMsg : ModelMessage :=
  { role := Role.system, content := ModelContent.text "sys" }

/-- A user model message. -/
def userModelMsg : ModelMessage :=
  { role := Role.user, content := ModelContent.text "hi" }

/-- An assistant model message. -/
def assistantModelMsg : ModelMessage :=
  { role := Role.assistant, content := ModelContent.text "hello" }

/-! Helper lemmas: the reconciliation scan. -/

theorem findToolCallArgsAux_cons_none {toolCallId : String} {x : Message}
    {rest : List Message} (hx : checkMessage toolCallId x = none) :
    findToolCallArgsAux toolCallId (x :: rest) = findToolCallArgsAux toolCallId rest := by
  simp [findToolCallArgsAux, hx]

theorem findToolCallArgsAux_cons_some {toolCallId : String} {x : Message}
    {rest : List Message} {a : Args} (hx : checkMessage toolCallId x = some a) :
    findToolCallArgsAux toolCallId (x :: rest) = a := by
  simp [findToolCallArgsAux, hx]

theorem findToolCallArgsAux_append_none {toolCallId : String} {l1 l2 : List Message}
    (h : ∀ m ∈ l1, checkMessage toolCallId m = none) :
    findToolCallArgsAux toolCallId (l1 ++ l2) = findToolCallArgsAux toolCallId l2 := by
  induction l1 with
  | nil => rfl
  | cons x xs ih =>
    rw [List.cons_append, findToolCallArgsAux_cons_none (h x (by simp))]
    exact ih (fun m hm => h m (List.mem_cons_of_mem _ hm))

theorem checkMessage_not_assistant {toolCallId : String} {m : Message}
    (h : m.role ≠ Role.assistant) : checkMessage toolCallId m = none := by
  simp [checkMessage, h]

theorem findToolCallArgs_split {toolCallId : String} {pre post : List Message}
    {c : Message} {a : Args} (hc : checkMessage toolCallId c = some a)
    (hpost : ∀ m ∈ post, checkMessage toolCallId m = none) :
    findToolCallArgs (pre ++ c :: post) toolCallId = a := by
  unfold findToolCallArgs
  rw [List.reverse_append, List.reverse_cons, List.append_assoc, List.singleton_append]
  rw [findToolCallArgsAux_append_none (fun m hm => hpost m (List.mem_reverse.mp hm))]
  exact findToolCallArgsAux_cons_some hc

theorem checkMessage_single_part {st : ToolState} {toolCallId toolName : String}
    {args : Args} {r : Option String} (h : args ≠ []) :
    checkMessage toolCallId
      { role := Role.assistant,
        content :=
          { parts := some [Part.toolInvocation
              { state := st, toolCallId := toolCallId, toolName := toolName,
                args := some args, result := r }],
            toolInvocations := none, metadata := none } } = some args := by
  cases args with
  | nil => exact absurd rfl h
  | cons p ps => simp [checkMessage, partMatchesToolCall, List.find?]

theorem checkMessage_legacy_entry {st : ToolState} {toolCallId toolName : String}
    {args : Args} {r : Option String} (h : args ≠ []) :
    checkMessage toolCallId
      { role := Role.assistant,
        content :=
          { parts := none,
            toolInvocations :=
              some [{ state := st, toolCallId := toolCallId, toolName := toolName,
                      args := some args, result := r }],
            metadata := none } } = some args := by
  cases args with
  | nil => exact absurd rfl h
  | cons p ps => simp [checkMessage, List.find?]

theorem checkMessage_result_empty {toolCallId toolName : String} {r : String} :
    checkMessage toolCallId
      { role := Role.assistant,
        content :=
          { parts := some [Part.toolInvocation
              { state := ToolState.result, toolCallId := toolCallId, toolName := toolName,
                args := some [], result := some r }],
            toolInvocations := none, metadata := none } } = none := by
  simp [checkMessage, partMatchesToolCall, List.find?]

/-- Claim C1: the args reconciler scans the history newest-to-oldest over
assistant-authored messages only, checking the structured content parts and
the legacy flat toolInvocations list for a tool-invocation matching the
toolCallId regardless of state; the newest match whose args mapping is
non-empty is returned, an empty-args match does not satisfy the search, and
when no message yields non-empty args the empty mapping is returned; in
particular, with a call-phase message carrying non-empty args and a later
result-phase message carrying empty args, the call-phase args are returned. -/
theorem findToolCallArgs_spec :
    (∀ (messages : List Message) (toolCallId : String),
        (∀ m ∈ messages, checkMessage toolCallId m = none) →
        findToolCallArgs messages toolCallId = []) ∧
    (∀ (pre post : List Message) (c : Message) (toolCallId : String) (a : Args),
        checkMessage toolCallId c = some a →
        (∀ m ∈ post, checkMessage toolCallId m = none) →
        findToolCallArgs (pre ++ c :: post) toolCallId = a) ∧
    (∀ (toolCallId : String) (m : Message),
        m.role ≠ Role.assistant → checkMessage toolCallId m = none) ∧
    (∀ (st : ToolState) (toolCallId toolName : String) (args : Args) (r : Option String),
        args ≠ [] →
        checkMessage toolCallId
          { role := Role.assistant,
            content :=
              { parts := some [Part.toolInvocation
                  { state := st, toolCallId := toolCallId, toolName := toolName,
                    args := some args, result := r }],
                toolInvocations := none, metadata := none } } = some args) ∧
    (∀ (st : ToolState) (toolCallId toolName : String) (args : Args) (r : Option String),
        args ≠ [] →
        checkMessage toolCallId
          { role := Role.assistant,
            content :=
              { parts := none,
                toolInvocations :=
                  some [{ state := st, toolCallId := toolCallId, toolName := toolName,
                          args := some args, result := r }],
                metadata := none } } = some args) ∧
    (∀ (pre mid post : List Message) (toolCallId toolName : String) (args : Args)
        (r : String),
        args ≠ [] →
        (∀ m ∈ mid, checkMessage toolCallId m = none) →
        (∀ m ∈ post, checkMessage toolCallId m = none) →
        findToolCallArgs
          (pre ++
            { role := Role.assistant,
              content :=
                { parts := some [Part.toolInvocation
                    { state := ToolState.call, toolCallId := toolCallId,
                      toolName := toolName, args := some args, result := none }],
                  toolInvocations := none, metadata := none } } ::
            (mid ++
              { role := Role.assistant,
                content :=
                  { parts := some [Part.toolInvocation
                      { state := ToolState.result, toolCallId := toolCallId,
                        toolName := toolName, args := some [], result := some r }],
                    toolInvocations := none, metadata := none } } :: post))
          toolCallId = args) := by
  refine ⟨?_, ?_, ?_, ?_, ?_, ?_⟩
  · intro messages toolCallId h
    unfold findToolCallArgs
    have h2 : ∀ m ∈ messages.reverse, checkMessage toolCallId m = none :=
      fun m hm => h m (List.mem_reverse.mp hm)
    simpa using @findToolCallArgsAux_append_none toolCallId messages.reverse [] h2
  · intro pre post c toolCallId a hc hpost
    exact findToolCallArgs_split hc hpost
  · intro toolCallId m h
    exact checkMessage_not_assistant h
  · intro st toolCallId toolName args r h
    exact checkMessage_single_part h
  · intro st toolCallId toolName args r h
    exact checkMessage_legacy_entry h
  · intro pre mid post toolCallId toolName args r hne hmid hpost
    apply findToolCallArgs_split (checkMessage_single_part hne)
    intro m hm
    rcases List.mem_append.mp hm with hm1 | hm2
    · exact hmid m hm1
    · rcases List.mem_cons.mp hm2 with hm3 | hm4
      · subst hm3; exact checkMessage_result_empty
      · exact hpost m hm4

/-- Witness for C1: on the split-scenario history the reconciler recovers the
call-phase args of "c1". -/
theorem findToolCallArgs_spec_witness :
    findToolCallArgs dbHistory "c1" = [("foo", "bar")] := by
  have h := findToolCallArgs_spec.2.2.2.2.2 [] [] [] "c1" "test_tool" [("foo", "bar")] "ok"
    (by decide) (by simp) (by simp)
  simpa [dbHistory, callPhaseMsg, resultPhaseMsg] using h

/-! Helper lemmas: index search and splicing for the Gemini normalizer. -/

theorem findIdxQ_of_all_false {α : Type} {p : α → Bool} {l : List α}
    (h : ∀ x ∈ l, p x = false) : ∀ i, l.findIdx? p i = none := by
  induction l with
  | nil => intro i; rfl
  | cons x xs ih =>
    intro i
    rw [List.findIdx?_cons, h x (by simp)]
    simpa using ih (fun m hm => h m (List.mem_cons_of_mem _ hm)) (i + 1)

theorem findIdxQ_append_first {α : Type} {p : α → Bool} {l1 : List α} {a : α}
    {l2 : List α} (h1 : ∀ x ∈ l1, p x = false) (ha : p a = true) :
    ∀ i, (l1 ++ a :: l2).findIdx? p i = some (i + l1.length) := by
  induction l1 with
  | nil => intro i; simp [List.findIdx?_cons, ha]
  | cons x xs ih =>
    intro i
    rw [List.cons_append, List.findIdx?_cons, h1 x (by simp)]
    have h2 := ih (fun m hm => h1 m (List.mem_cons_of_mem _ hm)) (i + 1)
    simp only [Bool.false_eq_true, if_false, h2, Option.some.injEq, List.length_cons]
    omega

theorem getElemQ_append_length {α : Type} (l1 : List α) (a : α) (l2 : List α) :
    (l1 ++ a :: l2)[l1.length]? = some a := by
  induction l1 with
  | nil => simp
  | cons x xs ih => simpa using ih

/-- Claim C5: the Gemini normalizer inserts exactly one synthetic minimal
user message immediately before an assistant-first sequence's first
non-system message, raises the classified "no user or assistant messages"
error (domain agent, category user) when no non-system message exists, and
returns a user-first sequence unchanged. -/
theorem ensureGemini_spec :
    noUserOrAssistantError.domain = ErrorDomain.agent ∧
    noUserOrAssistantError.category = ErrorCategory.user ∧
    (∀ messages : List ModelMessage,
        (∀ m ∈ messages, m.role = Role.system) →
        ensureGeminiCompatibleMessages messages = Except.error noUserOrAssistantError) ∧
    (∀ (sys : List ModelMessage) (a : ModelMessage) (rest : List ModelMessage),
        (∀ m ∈ sys, m.role = Role.system) → a.role = Role.assistant →
        ensureGeminiCompatibleMessages (sys ++ a :: rest) =
          Except.ok (sys ++ syntheticUserMessage :: a :: rest)) ∧
    (∀ (sys : List ModelMessage) (u : ModelMessage) (rest : List ModelMessage),
        (∀ m ∈ sys, m.role = Role.system) → u.role = Role.user →
        ensureGeminiCompatibleMessages (sys ++ u :: rest) = Except.ok (sys ++ u :: rest)) := by
  refine ⟨rfl, rfl, ?_, ?_, ?_⟩
  · intro messages h
    have hidx : messages.findIdx? (fun m => !(m.role == Role.system)) 0 = none :=
      findIdxQ_of_all_false (fun x hx => by simp [h x hx]) 0
    simp [ensureGeminiCompatibleMessages, hidx]
  · intro sys a rest hsys ha
    have hidx : (sys ++ a :: rest).findIdx? (fun m => !(m.role == Role.system)) 0 =
        some (0 + sys.length) :=
      findIdxQ_append_first (fun x hx => by simp [hsys x hx]) (by rw [ha]; decide) 0
    have hget := getElemQ_append_length sys a rest
    simp [ensureGeminiCompatibleMessages, hidx, hget, ha, List.take_left, List.drop_left]
  · intro sys u rest hsys hu
    have hidx : (sys ++ u :: rest).findIdx? (fun m => !(m.role == Role.system)) 0 =
        some (0 + sys.length) :=
      findIdxQ_append_first (fun x hx => by simp [hsys x hx]) (by rw [hu]; decide) 0
    have hget := getElemQ_append_length sys u rest
    simp [ensureGeminiCompatibleMessages, hidx, hget, hu]

/-- Witness for C5: a system-then-assistant sequence gets the synthetic user
message spliced in before the assistant message. -/
theorem ensureGemini_spec_witness :
    ensureGeminiCompatibleMessages [sysModelMsg, assistantModelMsg] =
      Except.ok [sysModelMsg, syntheticUserMessage, assistantModelMsg] := by
  have h := ensureGemini_spec.2.2.2.1 [sysModelMsg] assistantModelMsg []
    (by intro m hm; rw [List.mem_singleton] at hm; subst hm; rfl) rfl
  simpa using h

/-- Claim C4: the Anthropic normalizer keeps the sequence length, returns
non-tool messages and string-content messages unchanged, and inside
tool-role messages augments every tool-result part with an input field
equal to the args the reconciler yields for that part's toolCallId while
keeping all other parts; on the concrete split history, the tool-result
part for "c1" gets input = the call-phase args. -/
theorem ensureAnthropic_spec :
    (∀ (messages : List ModelMessage) (dbMessages : List Message),
        (ensureAnthropicCompatibleMessages messages dbMessages).length = messages.length) ∧
    (∀ (messages : List ModelMessage) (dbMessages : List Message) (i : Nat)
        (m : ModelMessage),
        messages[i]? = some m →
        (m.role ≠ Role.tool ∨ ∃ s, m.content = ModelContent.text s) →
        (ensureAnthropicCompatibleMessages messages dbMessages)[i]? = some m) ∧
    (∀ (messages : List ModelMessage) (dbMessages : List Message) (i : Nat)
        (m : ModelMessage) (ps : List ModelPart),
        messages[i]? = some m → m.role = Role.tool → m.content = ModelContent.parts ps →
        (ensureAnthropicCompatibleMessages messages dbMessages)[i]? =
          some { role := Role.tool,
                 content := ModelContent.parts (ps.map (enrichPart dbMessages)) }) ∧
    (∀ (dbMessages : List Message) (toolCallId output : String) (inp : Option Args),
        enrichPart dbMessages (ModelPart.toolResult toolCallId output inp) =
          ModelPart.toolResult toolCallId output
            (some (findToolCallArgs dbMessages toolCallId))) ∧
    (∀ (dbMessages : List Message) (s : String),
        enrichPart dbMessages (ModelPart.otherPart s) = ModelPart.otherPart s) ∧
    ensureAnthropicCompatibleMessages [toolResultModelMsg] dbHistory =
      [{ role := Role.tool,
         content := ModelContent.parts
           [ModelPart.toolResult "c1" "ok" (some [("foo", "bar")])] }] := by
  refine ⟨?_, ?_, ?_, fun _ _ _ _ => rfl, fun _ _ => rfl, ?_⟩
  · intro messages dbMessages
    simp [ensureAnthropicCompatibleMessages]
  · intro messages dbMessages i m hm hcase
    rw [ensureAnthropicCompatibleMessages, List.getElem?_map, hm]
    have : enrichToolResultsWithInput m dbMessages = m := by
      rcases hcase with hrole | ⟨s, hs⟩
      · unfold enrichToolResultsWithInput
        cases hc : m.content with
        | text t => rfl
        | parts ps => simp [hrole]
      · unfold enrichToolResultsWithInput
        rw [hs]
    simp [this]
  · intro messages dbMessages i m ps hm hrole hps
    rw [ensureAnthropicCompatibleMessages, List.getElem?_map, hm]
    have : enrichToolResultsWithInput m dbMessages =
        { role := Role.tool, content := ModelContent.parts (ps.map (enrichPart dbMessages)) } := by
      unfold enrichToolResultsWithInput
      rw [hps, hrole]
      simp
    simp [this]
  · rfl

/-- Witness for C4: the pointwise characterization applied to the concrete
tool-role message and the split history. -/
theorem ensureAnthropic_spec_witness :
    (ensureAnthropicCompatibleMessages [toolResultModelMsg] dbHistory)[0]? =
      some { role := Role.tool,
             content := ModelContent.parts
               [ModelPart.toolResult "c1" "ok" (some (findToolCallArgs dbHistory "c1"))] } := by
  have h := ensureAnthropic_spec.2.2.1 [toolResultModelMsg] dbHistory 0 toolResultModelMsg
    [ModelPart.toolResult "c1" "ok" none] rfl rfl rfl
  simpa [enrichPart] using h

/-- Claim C6: a provider-executed request never invokes the execute routine;
its result equals the request's output field with the other request fields
passed through, and exactly one telemetry span is started and ended. -/
theorem toolCallStep_providerExecuted (ctx : StepCtx)
    (responseMessages allMessages : List Message) (inputData : ToolCallInput)
    (resumeData : Option ResumeData) (hpe : inputData.providerExecuted = true) :
    toolCallStepExecute ctx responseMessages allMessages inputData resumeData =
      { outcome := StepOutcome.returned
          { input := inputData, result := inputData.output, error := none }
        events := []
        spans := [{ baseSpan inputData true with resultAttr := inputData.output, ended := true }]
        hookCalls := 0
        executeCalls := []
        responseMessages := responseMessages
        allMessages := allMessages } ∧
    ∃ s, (toolCallStepExecute ctx responseMessages allMessages inputData resumeData).spans =
      [s] ∧ s.ended = true := by
  constructor
  · simp [toolCallStepExecute, hpe]
  · refine ⟨{ baseSpan inputData true with resultAttr := inputData.output, ended := true },
      ?_, rfl⟩
    simp [toolCallStepExecute, hpe]

/-- Witness for C6 at the provider-executed fixture. -/
theorem toolCallStep_providerExecuted_witness :
    (toolCallStepExecute ctxEmpty [] [] inputProviderExec none).outcome =
      StepOutcome.returned { input := inputProviderExec, result := some "po", error := none } ∧
    (toolCallStepExecute ctxEmpty [] [] inputProviderExec none).executeCalls = [] := by
  have h := (toolCallStep_providerExecuted ctxEmpty [] [] inputProviderExec none rfl).1
  rw [h]
  exact ⟨rfl, rfl⟩

/-- Claim C8: resolution tries an exact key match first and then a linear
scan for a tool whose declared id equals the name; when both fail the step
does not raise but returns the descriptive "Tool <toolName> not found"
string together with the original request fields. -/
theorem toolCallStep_toolNotFound (ctx : StepCtx)
    (responseMessages allMessages : List Message) (inputData : ToolCallInput)
    (resumeData : Option ResumeData)
    (hpe : inputData.providerExecuted = false)
    (hkey : ctx.tools.lookup inputData.toolName = none)
    (hscan : (ctx.tools.map Prod.snd).find? (fun t => t.id == some inputData.toolName) =
      none) :
    toolCallStepExecute ctx responseMessages allMessages inputData resumeData =
      { outcome := StepOutcome.returned
          { input := inputData
            result := some ("Tool " ++ inputData.toolName ++ " not found")
            error := none }
        events := []
        spans := []
        hookCalls := 0
        executeCalls := []
        responseMessages := responseMessages
        allMessages := allMessages } ∧
    (∀ (tools : List (String × Tool)) (nm : String) (t : Tool),
        tools.lookup nm = some t → resolveTool tools nm = some t) ∧
    (∀ (tools : List (String × Tool)) (nm : String),
        tools.lookup nm = none →
        resolveTool tools nm = (tools.map Prod.snd).find? (fun t => t.id == some nm)) := by
  refine ⟨?_, ?_, ?_⟩
  · have hres : resolveTool ctx.tools inputData.toolName = none := by
      simp [resolveTool, hkey, hscan]
    simp [toolCallStepExecute, hpe, hres]
  · intro tools nm t h
    simp [resolveTool, h]
  · intro tools nm h
    simp [resolveTool, h]

/-- Witness for C8: the not-found result on an empty registry. -/
theorem toolCallStep_toolNotFound_witness :
    (toolCallStepExecute ctxEmpty [] [] inputW none).outcome =
      StepOutcome.returned
        { input := inputW, result := some "Tool t not found", error := none } := by
  have h := (toolCallStep_toolNotFound ctxEmpty [] [] inputW none rfl rfl rfl).1
  rw [h]
  rfl

/-- Claim C10: a resolved tool without an execute routine makes the step
return the request unchanged right after the input-available hook: no
approval event, no PendingApproval record, no suspension and no telemetry
span, even when the run-wide policy flag or the tool's requireApproval is
set (ctx and the tool's approval fields are universally quantified here). -/
theorem toolCallStep_passthrough (ctx : StepCtx)
    (responseMessages allMessages : List Message) (inputData : ToolCallInput)
    (resumeData : Option ResumeData) (tool : Tool)
    (hpe : inputData.providerExecuted = false)
    (hres : resolveTool ctx.tools inputData.toolName = some tool)
    (hexec : tool.execute = none) :
    toolCallStepExecute ctx responseMessages allMessages inputData resumeData =
      { outcome := StepOutcome.returned { input := inputData, result := none, error := none }
        events := []
        spans := []
        hookCalls := if tool.hasOnInputAvailable then 1 else 0
        executeCalls := []
        responseMessages := responseMessages
        allMessages := allMessages } := by
  simp [toolCallStepExecute, hpe, hres, hexec]

/-- Witness for C10: the passive tool under a set policy flag passes the
request through with no events, spans or message changes. -/
theorem toolCallStep_passthrough_witness :
    toolCallStepExecute ctxPassive [assistantMsgW] [assistantMsgW] inputW none =
      { outcome := StepOutcome.returned { input := inputW, result := none, error := none }
        events := []
        spans := []
        hookCalls := 1
        executeCalls := []
        responseMessages := [assistantMsgW]
        allMessages := [assistantMsgW] } := by
  have h := toolCallStep_passthrough ctxPassive [assistantMsgW] [assistantMsgW] inputW none
    toolPassive rfl rfl rfl
  simpa [toolPassive] using h

/-- The execute invocation with a thrown error, fully reduced. -/
theorem runToolExecute_error {span0 : Span} {exec : Args → Except String String}
    {inputData : ToolCallInput} {hookCalls : Nat}
    {responseMessages allMessages : List Message} {e : String}
    (h : exec inputData.args = Except.error e) :
    runToolExecute span0 exec inputData hookCalls responseMessages allMessages =
      { outcome := StepOutcome.returned { input := inputData, result := none, error := some e }
        events := []
        spans :=
          [{ span0 with
              statusCode := some 2
              statusMessage := some e
              exceptionRecorded := some e }]
        hookCalls := hookCalls
        executeCalls := [inputData.args]
        responseMessages := responseMessages
        allMessages := allMessages } := by
  simp [runToolExecute, h]

/-- The execute routine is invoked with the request args whichever way it
ends. -/
theorem runToolExecute_calls (span0 : Span) (exec : Args → Except String String)
    (inputData : ToolCallInput) (hookCalls : Nat)
    (responseMessages allMessages : List Message) :
    (runToolExecute span0 exec inputData hookCalls responseMessages allMessages).executeCalls =
      [inputData.args] := by
  unfold runToolExecute
  cases exec inputData.args <;> rfl

/-- Claim C7: when a resolved tool's execute routine throws on a path that
reaches execution, the step catches the exception, marks the single
telemetry span with error status code 2 and records the exception, and
returns a structured result carrying the error alongside the original
request fields; no exception escapes (the step is a total function). -/
theorem toolCallStep_executeThrows (ctx : StepCtx)
    (responseMessages allMessages : List Message) (inputData : ToolCallInput)
    (resumeData : Option ResumeData) (tool : Tool) (exec : Args → Except String String)
    (e : String)
    (hpe : inputData.providerExecuted = false)
    (hres : resolveTool ctx.tools inputData.toolName = some tool)
    (hexec : tool.execute = some exec)
    (herr : exec inputData.args = Except.error e)
    (hpath : (ctx.requireToolApprovalFlag || tool.requireApproval) = false ∨
      ∃ rd, resumeData = some rd ∧ rd.approved = true) :
    (toolCallStepExecute ctx responseMessages allMessages inputData resumeData).outcome =
      StepOutcome.returned { input := inputData, result := none, error := some e } ∧
    (∃ s, (toolCallStepExecute ctx responseMessages allMessages inputData resumeData).spans =
      [s] ∧ s.statusCode = some 2 ∧ s.exceptionRecorded = some e) ∧
    (toolCallStepExecute ctx responseMessages allMessages inputData resumeData).executeCalls =
      [inputData.args] := by
  rcases hpath with hflag | ⟨rd, hrd, happr⟩
  · have hstep : toolCallStepExecute ctx responseMessages allMessages inputData resumeData =
        runToolExecute (baseSpan inputData false) exec inputData
          (if tool.hasOnInputAvailable then 1 else 0) responseMessages allMessages := by
      simp [toolCallStepExecute, hpe, hres, hexec, hflag]
    rw [hstep, runToolExecute_error herr]
    exact ⟨rfl, ⟨{ baseSpan inputData false with
      statusCode := some 2, statusMessage := some e, exceptionRecorded := some e },
      rfl, rfl, rfl⟩, rfl⟩
  · subst hrd
    by_cases happ : (ctx.requireToolApprovalFlag || tool.requireApproval) = true
    · have hstep : toolCallStepExecute ctx responseMessages allMessages inputData (some rd) =
          runToolExecute (baseSpan inputData false) exec inputData
            (if tool.hasOnInputAvailable then 1 else 0) responseMessages
            (removeToolApprovalMetadata ctx.hasStorage inputData.toolCallId allMessages) := by
        simp [toolCallStepExecute, hpe, hres, hexec, happ, happr]
      rw [hstep, runToolExecute_error herr]
      exact ⟨rfl, ⟨{ baseSpan inputData false with
        statusCode := some 2, statusMessage := some e, exceptionRecorded := some e },
        rfl, rfl, rfl⟩, rfl⟩
    · have hflag2 : (ctx.requireToolApprovalFlag || tool.requireApproval) = false := by
        revert happ
        cases ctx.requireToolApprovalFlag || tool.requireApproval <;> simp
      have hstep : toolCallStepExecute ctx responseMessages allMessages inputData (some rd) =
          runToolExecute (baseSpan inputData false) exec inputData
            (if tool.hasOnInputAvailable then 1 else 0) responseMessages allMessages := by
        simp [toolCallStepExecute, hpe, hres, hexec, hflag2]
      rw [hstep, runToolExecute_error herr]
      exact ⟨rfl, ⟨{ baseSpan inputData false with
        statusCode := some 2, statusMessage := some e, exceptionRecorded := some e },
        rfl, rfl, rfl⟩, rfl⟩

/-- Witness for C7 at the throwing tool. -/
theorem toolCallStep_executeThrows_witness :
    (toolCallStepExecute ctxThrows [] [] inputW none).outcome =
      StepOutcome.returned { input := inputW, result := none, error := some "boom" } := by
  exact (toolCallStep_executeThrows ctxThrows [] [] inputW none toolThrows execFail "boom"
    rfl rfl rfl rfl (Or.inl rfl)).1

/-! Helper lemmas: approval-metadata bookkeeping. -/

theorem updateLastSuchThat_eq {p : Message → Bool} {f : Message → Message}
    {l1 l2 : List Message} {a : Message}
    (hpa : p a = true) (hl2 : ∀ m ∈ l2, p m = false) :
    updateLastSuchThat p f (l1 ++ a :: l2) = l1 ++ f a :: l2 := by
  induction l1 with
  | nil =>
    have h2 : l2.any p = false :=
      List.any_eq_false.mpr (fun x hx => by simp [hl2 x hx])
    simp [updateLastSuchThat, h2, hpa]
  | cons x xs ih =>
    have hany : (xs ++ a :: l2).any p = true :=
      List.any_eq_true.mpr ⟨a, by simp, hpa⟩
    rw [List.cons_append]
    simp [updateLastSuchThat, hany, ih]

theorem updateLastSuchThat_mem {p : Message → Bool} {f : Message → Message}
    {l : List Message} {x : Message} (hx : x ∈ updateLastSuchThat p f l) :
    x ∈ l ∨ ∃ y ∈ l, x = f y := by
  induction l with
  | nil => simp [updateLastSuchThat] at hx
  | cons z zs ih =>
    by_cases hany : zs.any p = true
    · rw [updateLastSuchThat, if_pos hany] at hx
      rcases List.mem_cons.mp hx with h1 | h2
      · exact Or.inl (by simp [h1])
      · rcases ih h2 with h3 | ⟨y, hy, hxy⟩
        · exact Or.inl (List.mem_cons_of_mem _ h3)
        · exact Or.inr ⟨y, List.mem_cons_of_mem _ hy, hxy⟩
    · rw [updateLastSuchThat, if_neg hany] at hx
      by_cases hpz : p z = true
      · rw [if_pos hpz] at hx
        rcases List.mem_cons.mp hx with h1 | h2
        · exact Or.inr ⟨z, by simp, h1⟩
        · exact Or.inl (List.mem_cons_of_mem _ h2)
      · rw [if_neg hpz] at hx
        exact Or.inl hx

theorem beq_false_of_not_beq {a b : String} (h : ¬(a == b) = true) : (a == b) = false := by
  revert h
  cases a == b <;> simp

theorem objInsert_lookup (k : String) (v : PendingApproval)
    (m : List (String × PendingApproval)) :
    (objInsert k v m).lookup k = some v := by
  induction m with
  | nil => simp [objInsert, List.lookup]
  | cons e rest ih =>
    rcases e with ⟨k', v'⟩
    by_cases hb : (k' == k) = true
    · have hkeq : k' = k := eq_of_beq hb
      subst hkeq
      simp [objInsert, List.lookup]
    · have hb' : (k' == k) = false := beq_false_of_not_beq hb
      have hkk : (k == k') = false := by
        refine beq_false_of_not_beq (fun hkk => ?_)
        rw [eq_of_beq hkk] at hb'
        simp at hb'
      simp [objInsert, hb', List.lookup, hkk, ih]

theorem objInsert_ne_nil (k : String) (v : PendingApproval)
    (m : List (String × PendingApproval)) : objInsert k v m ≠ [] := by
  cases m with
  | nil => simp [objInsert]
  | cons e rest =>
    rcases e with ⟨k', v'⟩
    by_cases hb : (k' == k) = true
    · simp [objInsert, hb]
    · simp [objInsert, beq_false_of_not_beq hb]

theorem objInsert_mem {k : String} {v : PendingApproval}
    {m : List (String × PendingApproval)} {e : String × PendingApproval}
    (he : e ∈ objInsert k v m) : e.1 = k ∨ e ∈ m := by
  induction m with
  | nil =>
    simp only [objInsert, List.mem_singleton] at he
    subst he
    exact Or.inl rfl
  | cons p rest ih =>
    rcases p with ⟨k', v'⟩
    by_cases hb : (k' == k) = true
    · simp only [objInsert, if_pos hb] at he
      rcases List.mem_cons.mp he with h1 | h2
      · subst h1
        exact Or.inl (eq_of_beq hb)
      · exact Or.inr (List.mem_cons_of_mem _ h2)
    · simp only [objInsert, if_neg hb] at he
      rcases List.mem_cons.mp he with h1 | h2
      · subst h1
        exact Or.inr (by simp)
      · rcases ih h2 with h3 | h4
        · exact Or.inl h3
        · exact Or.inr (List.mem_cons_of_mem _ h4)

theorem objInsert_keys_nodup {k : String} {v : PendingApproval}
    {m : List (String × PendingApproval)} (h : (m.map Prod.fst).Nodup) :
    ((objInsert k v m).map Prod.fst).Nodup := by
  induction m with
  | nil => simp [objInsert]
  | cons e rest ih =>
    rcases e with ⟨k', v'⟩
    rw [List.map_cons] at h
    rcases List.nodup_cons.mp h with ⟨hk', hrest⟩
    by_cases hb : (k' == k) = true
    · simpa [objInsert, hb] using h
    · rw [objInsert, if_neg hb, List.map_cons, List.nodup_cons]
      refine ⟨?_, ih hrest⟩
      intro hmem
      rcases List.mem_map.mp hmem with ⟨p, hp, hp1⟩
      rcases objInsert_mem hp with h1 | h2
      · rw [hp1] at h1
        have h1' : k' = k := h1
        rw [h1'] at hb
        simp at hb
      · exact hk' (hp1 ▸ List.mem_map.mpr ⟨p, h2, rfl⟩)

theorem objInsert_filter_eq {k : String} {v : PendingApproval}
    {m : List (String × PendingApproval)} (h : (m.map Prod.fst).Nodup) :
    (objInsert k v m).filter (fun e => e.1 == k) = [(k, v)] := by
  induction m with
  | nil => simp [objInsert, List.filter]
  | cons e rest ih =>
    rcases e with ⟨k', v'⟩
    rw [List.map_cons] at h
    rcases List.nodup_cons.mp h with ⟨hk', hrest⟩
    by_cases hb : (k' == k) = true
    · have hkeq : k' = k := eq_of_beq hb
      have hfr : rest.filter (fun e => e.1 == k) = [] := by
        refine List.filter_eq_nil_iff.mpr (fun a ha hfa => ?_)
        apply hk'
        rw [hkeq, ← eq_of_beq hfa]
        exact List.mem_map.mpr ⟨a, ha, rfl⟩
      simp [objInsert, hb, List.filter, hfr, hkeq]
    · have hb' : (k' == k) = false := beq_false_of_not_beq hb
      simp [objInsert, hb', List.filter, ih hrest]

theorem objDelete_lookup (k : String) (m : List (String × PendingApproval)) :
    (objDelete k m).lookup k = none := by
  unfold objDelete
  induction m with
  | nil => rfl
  | cons e rest ih =>
    rcases e with ⟨k', v'⟩
    by_cases hb : (k' == k) = true
    · simpa [List.filter, hb] using ih
    · have hb' : (k' == k) = false := beq_false_of_not_beq hb
      have hkk : (k == k') = false := by
        refine beq_false_of_not_beq (fun hkk => ?_)
        rw [eq_of_beq hkk] at hb'
        simp at hb'
      simpa [List.filter, hb', List.lookup, hkk] using ih

theorem objDelete_keys_nodup {k : String} {m : List (String × PendingApproval)}
    (h : (m.map Prod.fst).Nodup) : ((objDelete k m).map Prod.fst).Nodup :=
  List.Nodup.sublist (List.Sublist.map Prod.fst (List.filter_sublist m)) h

theorem addApprovalToMessage_role (toolCallId toolName : String) (args : Args)
    (runId : String) (msg : Message) :
    (addApprovalToMessage toolCallId toolName args runId msg).role = msg.role := rfl

theorem pendingOpt_add (toolCallId toolName : String) (args : Args) (runId : String)
    (msg : Message) :
    pendingOpt (addApprovalToMessage toolCallId toolName args runId msg) =
      some (objInsert toolCallId
        { toolName := toolName, args := args, type := "approval", runId := runId }
        (pendingMapOf msg)) := by
  cases hmd : msg.content.metadata with
  | none => simp [addApprovalToMessage, pendingOpt, pendingMapOf, hmd]
  | some md => simp [addApprovalToMessage, pendingOpt, pendingMapOf, hmd]

theorem remove_pendingOpt_cases (toolCallId : String) (msg : Message) :
    (removeApprovalFromMessage toolCallId msg = msg ∧ pendingOpt msg = none) ∨
    ∃ m, pendingOpt msg = some m ∧
      pendingOpt (removeApprovalFromMessage toolCallId msg) =
        (if (objDelete toolCallId m).isEmpty then none else some (objDelete toolCallId m)) := by
  cases hmd : msg.content.metadata with
  | none =>
    refine Or.inl ⟨?_, ?_⟩ <;> simp [removeApprovalFromMessage, pendingOpt, hmd]
  | some md =>
    cases hp : md.pendingToolApprovals with
    | none =>
      refine Or.inl ⟨?_, ?_⟩ <;> simp [removeApprovalFromMessage, pendingOpt, hmd, hp]
    | some m =>
      refine Or.inr ⟨m, ?_, ?_⟩ <;> simp [removeApprovalFromMessage, pendingOpt, hmd, hp]

theorem msgHasPending_remove (toolCallId : String) (msg : Message) :
    msgHasPending toolCallId (removeApprovalFromMessage toolCallId msg) = false := by
  rcases remove_pendingOpt_cases toolCallId msg with ⟨heq, hnone⟩ | ⟨m, hpm, hpo⟩
  · rw [heq]
    unfold msgHasPending
    rw [hnone]
  · unfold msgHasPending
    rw [hpo]
    by_cases he : (objDelete toolCallId m).isEmpty = true
    · rw [if_pos he]
    · rw [if_neg he]
      show (List.lookup toolCallId (objDelete toolCallId m)).isSome = false
      rw [objDelete_lookup]
      rfl

theorem msgInv_keys_nodup {msg : Message} (h : msgInv msg) :
    ((pendingMapOf msg).map Prod.fst).Nodup := by
  cases hp : pendingOpt msg with
  | none => simp [pendingMapOf, hp]
  | some m => simpa [pendingMapOf, hp] using (h m hp).2

theorem msgInv_add (toolCallId toolName : String) (args : Args) (runId : String)
    {msg : Message} (h : msgInv msg) :
    msgInv (addApprovalToMessage toolCallId toolName args runId msg) := by
  intro m hm
  rw [pendingOpt_add] at hm
  injection hm with hm
  subst hm
  exact ⟨objInsert_ne_nil _ _ _, objInsert_keys_nodup (msgInv_keys_nodup h)⟩

theorem msgInv_remove (toolCallId : String) {msg : Message} (h : msgInv msg) :
    msgInv (removeApprovalFromMessage toolCallId msg) := by
  rcases remove_pendingOpt_cases toolCallId msg with ⟨heq, _⟩ | ⟨m, hpm, hpo⟩
  · rw [heq]
    exact h
  · intro m2 hm2
    rw [hpo] at hm2
    by_cases he : (objDelete toolCallId m).isEmpty = true
    · rw [if_pos he] at hm2
      cases hm2
    · rw [if_neg he] at hm2
      injection hm2 with hm2
      subst hm2
      refine ⟨?_, objDelete_keys_nodup (h m hpm).2⟩
      intro hnil
      apply he
      rw [hnil]
      rfl

/-- Claim C9: the approval bookkeeping keeps at most one PendingApproval
record per toolCallId — insertion overwrites the record under an existing
key and preserves key distinctness — and keeps any present
pendingToolApprovals map non-empty: removal deletes the map key entirely
when the map becomes empty, so both the add and the remove operation
preserve the per-message invariant. -/
theorem approvalMetadata_invariants :
    (∀ (k : String) (v : PendingApproval) (m : List (String × PendingApproval)),
        (objInsert k v m).lookup k = some v) ∧
    (∀ (k : String) (v : PendingApproval) (m : List (String × PendingApproval)),
        (m.map Prod.fst).Nodup →
        ((objInsert k v m).map Prod.fst).Nodup ∧
        (objInsert k v m).filter (fun e => e.1 == k) = [(k, v)]) ∧
    (∀ (toolCallId : String) (msg : Message) (m2 : List (String × PendingApproval)),
        pendingOpt (removeApprovalFromMessage toolCallId msg) = some m2 → m2 ≠ []) ∧
    (∀ (toolCallId toolName : String) (args : Args) (runId : String)
        (msgs : List Message),
        (∀ m ∈ msgs, msgInv m) →
        ∀ m2 ∈ addToolApprovalMetadata toolCallId toolName args runId msgs, msgInv m2) ∧
    (∀ (hasStorage : Bool) (toolCallId : String) (msgs : List Message),
        (∀ m ∈ msgs, msgInv m) →
        ∀ m2 ∈ removeToolApprovalMetadata hasStorage toolCallId msgs, msgInv m2) := by
  refine ⟨objInsert_lookup,
    fun k v m h => ⟨objInsert_keys_nodup h, objInsert_filter_eq h⟩, ?_, ?_, ?_⟩
  · intro toolCallId msg m2 hm2
    rcases remove_pendingOpt_cases toolCallId msg with ⟨heq, hnone⟩ | ⟨m, hpm, hpo⟩
    · rw [heq, hnone] at hm2
      cases hm2
    · rw [hpo] at hm2
      by_cases he : (objDelete toolCallId m).isEmpty = true
      · rw [if_pos he] at hm2
        cases hm2
      · rw [if_neg he] at hm2
        injection hm2 with hm2
        subst hm2
        intro hnil
        apply he
        rw [hnil]
        rfl
  · intro toolCallId toolName args runId msgs hinv m2 hm2
    unfold addToolApprovalMetadata at hm2
    rcases updateLastSuchThat_mem hm2 with h1 | ⟨y, hy, hm2y⟩
    · exact hinv m2 h1
    · subst hm2y
      exact msgInv_add _ _ _ _ (hinv y hy)
  · intro hasStorage toolCallId msgs hinv m2 hm2
    unfold removeToolApprovalMetadata at hm2
    by_cases hs : hasStorage = true
    · rw [if_pos hs] at hm2
      rcases updateLastSuchThat_mem hm2 with h1 | ⟨y, hy, hm2y⟩
      · exact hinv m2 h1
      · subst hm2y
        exact msgInv_remove _ (hinv y hy)
    · rw [if_neg hs] at hm2
      exact hinv m2 hm2

/-- Witness for C9: insertion over an existing map keeps keys distinct and
leaves exactly one record under the inserted key. -/
theorem approvalMetadata_invariants_witness :
    ((objInsert "c1" pendingRecW [("c0", pendingRecW)]).map Prod.fst).Nodup ∧
    (objInsert "c1" pendingRecW [("c0", pendingRecW)]).filter (fun e => e.1 == "c1") =
      [("c1", pendingRecW)] :=
  approvalMetadata_invariants.2.1 "c1" pendingRecW [("c0", pendingRecW)] (by decide)

/-- Claim C2: with approval required (run-wide flag or the tool's own
requireApproval), no resume data present and an assistant message in the
in-flight response, the step emits exactly one tool-call-approval event
carrying the toolCallId, toolName and args, attaches exactly one
PendingApproval record (type "approval", with the runId) for that
toolCallId to the most recent assistant message of the response, invokes
nothing, and suspends with a checkpoint holding the approval request plus
the serialized stream-state snapshot, tagged with a resume label equal to
the toolCallId. -/
theorem toolCallStep_approval_suspends (ctx : StepCtx)
    (l1 l2 allMessages : List Message) (a : Message)
    (inputData : ToolCallInput) (tool : Tool) (exec : Args → Except String String)
    (hpe : inputData.providerExecuted = false)
    (hres : resolveTool ctx.tools inputData.toolName = some tool)
    (hexec : tool.execute = some exec)
    (happ : (ctx.requireToolApprovalFlag || tool.requireApproval) = true)
    (ha : a.role = Role.assistant)
    (hl2 : ∀ m ∈ l2, m.role ≠ Role.assistant)
    (hnd : ((pendingMapOf a).map Prod.fst).Nodup) :
    (toolCallStepExecute ctx (l1 ++ a :: l2) allMessages inputData none).events =
      [ChunkEvent.toolCallApproval ctx.runId inputData.toolCallId inputData.toolName
        inputData.args] ∧
    (toolCallStepExecute ctx (l1 ++ a :: l2) allMessages inputData none).outcome =
      StepOutcome.suspended
        { requireToolApproval :=
            { toolCallId := inputData.toolCallId, toolName := inputData.toolName,
              args := inputData.args }
          streamState := ctx.streamState
          resumeLabel := inputData.toolCallId } ∧
    (toolCallStepExecute ctx (l1 ++ a :: l2) allMessages inputData none).executeCalls =
      [] ∧
    ∃ a2,
      (toolCallStepExecute ctx (l1 ++ a :: l2) allMessages inputData none).responseMessages =
        l1 ++ a2 :: l2 ∧
      a2.role = Role.assistant ∧
      (pendingMapOf a2).filter (fun e => e.1 == inputData.toolCallId) =
        [(inputData.toolCallId,
          { toolName := inputData.toolName, args := inputData.args, type := "approval",
            runId := ctx.runId })] := by
  have hresp : addToolApprovalMetadata inputData.toolCallId inputData.toolName
      inputData.args ctx.runId (l1 ++ a :: l2) =
      l1 ++ addApprovalToMessage inputData.toolCallId inputData.toolName inputData.args
        ctx.runId a :: l2 := by
    unfold addToolApprovalMetadata
    refine updateLastSuchThat_eq ?_ ?_
    · rw [ha]
      decide
    · intro m hm
      have h2 := hl2 m hm
      revert h2
      cases m.role <;> intro h2
      · decide
      · decide
      · exact absurd rfl h2
      · decide
  refine ⟨?_, ?_, ?_, ?_⟩
  · simp [toolCallStepExecute, hpe, hres, hexec, happ]
  · simp [toolCallStepExecute, hpe, hres, hexec, happ]
  · simp [toolCallStepExecute, hpe, hres, hexec, happ]
  · refine ⟨addApprovalToMessage inputData.toolCallId inputData.toolName inputData.args
      ctx.runId a, ?_, ?_, ?_⟩
    · have hr2 : (toolCallStepExecute ctx (l1 ++ a :: l2) allMessages inputData
          none).responseMessages =
          addToolApprovalMetadata inputData.toolCallId inputData.toolName inputData.args
            ctx.runId (l1 ++ a :: l2) := by
        simp [toolCallStepExecute, hpe, hres, hexec, happ]
      rw [hr2, hresp]
    · rw [addApprovalToMessage_role, ha]
    · have hmap : pendingMapOf (addApprovalToMessage inputData.toolCallId
          inputData.toolName inputData.args ctx.runId a) =
          objInsert inputData.toolCallId
            { toolName := inputData.toolName, args := inputData.args,
              type := "approval", runId := ctx.runId } (pendingMapOf a) := by
        rw [pendingMapOf, pendingOpt_add]
        rfl
      rw [hmap]
      exact objInsert_filter_eq hnd

/-- Witness for C2 at the approval-gated tool with one assistant response
message. -/
theorem toolCallStep_approval_suspends_witness :
    (toolCallStepExecute ctxGated [assistantMsgW] [] inputW none).events =
      [ChunkEvent.toolCallApproval "r1" "c1" "t" [("x", "1")]] ∧
    (toolCallStepExecute ctxGated [assistantMsgW] [] inputW none).outcome =
      StepOutcome.suspended
        { requireToolApproval :=
            { toolCallId := "c1", toolName := "t", args := [("x", "1")] }
          streamState := "ss"
          resumeLabel := "c1" } := by
  have h := toolCallStep_approval_suspends ctxGated [] [] [] assistantMsgW inputW toolGated
    execOk rfl rfl rfl rfl rfl (by simp) (by decide)
  exact ⟨h.1, h.2.1⟩

/-- The tool's execute routine runs against the given persisted messages
whichever way it ends. -/
theorem runToolExecute_allMessages (span0 : Span) (exec : Args → Except String String)
    (inputData : ToolCallInput) (hookCalls : Nat)
    (responseMessages allMessages : List Message) :
    (runToolExecute span0 exec inputData hookCalls responseMessages allMessages).allMessages =
      allMessages := by
  unfold runToolExecute
  cases exec inputData.args <;> rfl

/-- Claim C3 as amended: on resumption of an approval suspension with the
persistence internals present (save-queue manager and thread id, here the
hasStorage flag), the step removes the PendingApproval record for the
toolCallId from the persisted messages; with approved: false it returns the
non-error "not approved" result together with the original request fields
and never invokes the execute routine; with approved: true it falls through
and invokes the execute routine with the original args. -/
theorem toolCallStep_resume (ctx : StepCtx)
    (responseMessages l1 l2 : List Message) (pm : Message)
    (inputData : ToolCallInput) (tool : Tool) (exec : Args → Except String String)
    (rd : ResumeData)
    (hpe : inputData.providerExecuted = false)
    (hres : resolveTool ctx.tools inputData.toolName = some tool)
    (hexec : tool.execute = some exec)
    (happ : (ctx.requireToolApprovalFlag || tool.requireApproval) = true)
    (hst : ctx.hasStorage = true)
    (hpm : msgHasPending inputData.toolCallId pm = true)
    (hl1 : ∀ m ∈ l1, msgHasPending inputData.toolCallId m = false)
    (hl2 : ∀ m ∈ l2, msgHasPending inputData.toolCallId m = false) :
    (∀ m ∈ (toolCallStepExecute ctx responseMessages (l1 ++ pm :: l2) inputData
        (some rd)).allMessages, msgHasPending inputData.toolCallId m = false) ∧
    (rd.approved = false →
      (toolCallStepExecute ctx responseMessages (l1 ++ pm :: l2) inputData
          (some rd)).outcome =
        StepOutcome.returned
          { input := inputData, result := some "Tool call was not approved by the user",
            error := none } ∧
      (toolCallStepExecute ctx responseMessages (l1 ++ pm :: l2) inputData
          (some rd)).executeCalls = []) ∧
    (rd.approved = true →
      (toolCallStepExecute ctx responseMessages (l1 ++ pm :: l2) inputData
          (some rd)).executeCalls = [inputData.args]) := by
  have hrm : removeToolApprovalMetadata ctx.hasStorage inputData.toolCallId
      (l1 ++ pm :: l2) =
      l1 ++ removeApprovalFromMessage inputData.toolCallId pm :: l2 := by
    rw [hst]
    unfold removeToolApprovalMetadata
    rw [if_pos rfl]
    exact updateLastSuchThat_eq hpm hl2
  have hmem : ∀ m ∈ l1 ++ removeApprovalFromMessage inputData.toolCallId pm :: l2,
      msgHasPending inputData.toolCallId m = false := by
    intro m hm
    rcases List.mem_append.mp hm with h1 | h2
    · exact hl1 m h1
    · rcases List.mem_cons.mp h2 with h3 | h4
      · subst h3
        exact msgHasPending_remove _ _
      · exact hl2 m h4
  refine ⟨?_, ?_, ?_⟩
  · intro m hm
    have hall : (toolCallStepExecute ctx responseMessages (l1 ++ pm :: l2) inputData
        (some rd)).allMessages =
        l1 ++ removeApprovalFromMessage inputData.toolCallId pm :: l2 := by
      cases hra : rd.approved
      · simp [toolCallStepExecute, hpe, hres, hexec, happ, hra, hrm]
      · simp [toolCallStepExecute, hpe, hres, hexec, happ, hra, hrm,
          runToolExecute_allMessages]
    rw [hall] at hm
    exact hmem m hm
  · intro hra
    constructor <;> simp [toolCallStepExecute, hpe, hres, hexec, happ, hra, hrm]
  · intro hra
    simp [toolCallStepExecute, hpe, hres, hexec, happ, hra, hrm, runToolExecute_calls]

/-- Witness for C3 (amended) at the declined resumption fixture. -/
theorem toolCallStep_resume_witness :
    (toolCallStepExecute ctxGated [] [pendingMsgW] inputW
        (some { approved := false })).outcome =
      StepOutcome.returned
        { input := inputW, result := some "Tool call was not approved by the user",
          error := none } := by
  exact ((toolCallStep_resume ctxGated [] [] [] pendingMsgW inputW toolGated execOk
    { approved := false } rfl rfl rfl rfl rfl (by decide) (by simp) (by simp)).2.1 rfl).1

/-- Counterexample for C3 as stated: when the persistence internals are
absent (no save-queue manager / thread id), a genuine approval resumption —
the step does return the "not approved" result — leaves the persisted
messages untouched, so the PendingApproval record for the toolCallId is not
removed. -/
theorem toolCallStep_resume_noStorage_counterexample :
    (toolCallStepExecute ctxGatedNoStorage [] [pendingMsgW] inputW
        (some { approved := false })).outcome =
      StepOutcome.returned
        { input := inputW, result := some "Tool call was not approved by the user",
          error := none } ∧
    (toolCallStepExecute ctxGatedNoStorage [] [pendingMsgW] inputW
        (some { approved := false })).allMessages = [pendingMsgW] ∧
    msgHasPending "c1" pendingMsgW = true := by
  refine ⟨?_, ?_, ?_⟩ <;> decide

end Mastra
